import Mathlib

/-!
Shallow embedding of the flow-graph scheduler/executor core of
smarterplaylists-rs, together with proofs about the claims in the
natural-language specification.

Rust source files embedded here:
  - `src/controller.rs` (`UserDefinedFlow`, `build_schedule`, `execute`,
    `execute_batch`)
  - `src/components/mod.rs` (`NonExhaustive`, `Component`, adjacently
    tagged deserialization)
  - `src/components/filters/filter_take.rs`
  - `src/components/filters/filter_dedup_track.rs`
  - `src/components/filters/filter_dedup_artist.rs`
  - `src/components/sources/source_user_liked_tracks.rs`

Modelling conventions:
  - `Uuid` is modelled as `Nat`; `HashMap` key sets are modelled as
    association lists whose key list is assumed `Nodup` where relevant.
  - Machine integers (`u32`, `usize`) are modelled as `Nat`; the programs
    embedded here never rely on wrap-around.
  - A Rust function that can panic is embedded as an `Option`-valued
    function, `none` meaning a panic (`unwrap` of `None`, panic in a
    spawned thread joined with `unwrap`, ...).
  - `Result<T>` values whose error path is live are embedded as
    `Except String T`, carrying the exact error message strings of the
    source.
-/

/-- `rspotify::model::SimplifiedArtist`: the two fields the core reads
(`id` as the stable identity string obtained via `id.id()`, and `name`). -/
structure SimplifiedArtist where
  id : Option String
  name : String
deriving DecidableEq, Repr

/-- `rspotify::model::FullTrack`: the fields the core reads (`id` via
`id.id()`, the ordered `artists` list, and the display `name`). -/
structure FullTrack where
  id : Option String
  artists : List SimplifiedArtist
  name : String
deriving DecidableEq, Repr

/-- `TrackList` from `src/components/mod.rs`: a `Vec<FullTrack>`. -/
abbrev TrackList : Type := List FullTrack

/-- Minimal model of `serde_json::Value` (and the equivalent YAML values),
sufficient for the flow-definition payloads the parser receives. -/
inductive JValue : Type where
  | jnull : JValue
  | jbool : Bool → JValue
  | jnum : Int → JValue
  | jstr : String → JValue
  | jarr : List JValue → JValue
  | jobj : List (String × JValue) → JValue

/-- Field lookup in a JSON object, `none` when the value is not an object
or the field is absent. -/
def JValue.getField : JValue → String → Option JValue
  | .jobj fields, k => (fields.find? (fun kv => kv.1 = k)).map Prod.snd
  | _, _ => none

/-- `TakeArgs` from `filter_take.rs`: `{ limit: u32, from: String }`. -/
structure TakeArgs where
  limit : Nat
  makeFrom : String
deriving DecidableEq, Repr

/-- `DeduplicateTrackArgs` from `filter_dedup_track.rs` (empty struct). -/
structure DeduplicateTrackArgs where
deriving DecidableEq, Repr

/-- `DeduplicateArtistArgs` from `filter_dedup_artist.rs` (empty struct). -/
structure DeduplicateArtistArgs where
deriving DecidableEq, Repr

/-- `AlbumArgs` from `sources.rs`: `{ id: String }`. -/
structure AlbumArgs where
  id : String
deriving DecidableEq, Repr

/-- `ArtistTopTracksArgs` from `sources.rs`: `{ id: String }`. -/
structure ArtistTopTracksArgs where
  id : String
deriving DecidableEq, Repr

/-- `UserLikedTracksArgs` from `source_user_liked_tracks.rs`:
`{ limit: u32 }`. -/
structure UserLikedTracksArgs where
  limit : Nat
deriving DecidableEq, Repr

/-- The `Component` enum generated by the `components!` macro in
`src/components/mod.rs`: one variant per registered component, each
holding that component's `Args`. -/
inductive Component : Type where
  | ArtistTopTracks (args : ArtistTopTracksArgs)
  | Album (args : AlbumArgs)
  | UserLikedTracks (args : UserLikedTracksArgs)
  | Take (args : TakeArgs)
  | DeduplicateArtist (args : DeduplicateArtistArgs)
  | DeduplicateTrack (args : DeduplicateTrackArgs)
deriving DecidableEq, Repr

/-- `Component::name` from the `components!` macro: the serde tag of the
variant. -/
def Component.name : Component → String
  | .ArtistTopTracks _ => "source:artist_top_tracks"
  | .Album _ => "source:album"
  | .UserLikedTracks _ => "source:user_liked_tracks"
  | .Take _ => "filter:take"
  | .DeduplicateArtist _ => "filter:dedup_artist"
  | .DeduplicateTrack _ => "filter:dedup_track"

/-- `NonExhaustive<T>` from `src/components/mod.rs`: a serde `untagged`
enum used so that unknown components still deserialize (as
`Unknown(serde_json::Value)`). -/
inductive NonExhaustive (T : Type) : Type where
  | Known (inner : T)
  | Unknown (value : JValue)

/-- `NonExhaustive::unwrap`: returns the inner component, panics
(modelled as `none`) on `Unknown`. -/
def NonExhaustive.unwrap {T : Type} : NonExhaustive T → Option T
  | .Known inner => some inner
  | .Unknown _ => none

/-- Model of deserializing a `u32` field from a JSON value: a
non-negative integer below `2^32`. -/
def parseU32 : JValue → Option Nat
  | .jnum n => if 0 ≤ n ∧ n < 4294967296 then some n.toNat else none
  | _ => none

/-- Model of deserializing a `String` field from a JSON value. -/
def parseString : JValue → Option String
  | .jstr s => some s
  | _ => none

/-- Deserialization of `TakeArgs` from its `parameters` payload: requires
a `limit` field holding a `u32` and a `from` field holding a string
(serde ignores unknown fields by default). -/
def parseTakeArgs (v : JValue) : Option TakeArgs := do
  let l ← v.getField "limit"
  let fr ← v.getField "from"
  let limit ← parseU32 l
  let s ← parseString fr
  pure ⟨limit, s⟩

/-- Deserialization of an empty-struct `Args` (`DeduplicateTrackArgs`,
`DeduplicateArtistArgs`): accepts any object payload. -/
def parseEmptyArgs (v : JValue) : Option Unit :=
  match v with
  | .jobj _ => some ()
  | _ => none

/-- Deserialization of an `{ id: String }` `Args` struct. -/
def parseIdArgs (v : JValue) : Option String := do
  let i ← v.getField "id"
  parseString i

/-- Deserialization of `UserLikedTracksArgs` from its payload. -/
def parseUserLikedTracksArgs (v : JValue) : Option UserLikedTracksArgs := do
  let l ← v.getField "limit"
  let limit ← parseU32 l
  pure ⟨limit⟩

/-- Model of the serde adjacently-tagged deserializer for `Component`
(`#[serde(tag = "component", content = "parameters")]` in
`src/components/mod.rs`): reads the `component` tag, then deserializes
the `parameters` payload against the `Args` schema declared for that
variant.  Returns `none` (a serde error) for an unknown tag or a payload
that does not match the variant's schema. -/
def parseComponent (v : JValue) : Option Component := do
  let tagv ← v.getField "component"
  let tag ← parseString tagv
  if tag = "source:artist_top_tracks" then
    let p ← v.getField "parameters"
    let i ← parseIdArgs p
    pure (.ArtistTopTracks ⟨i⟩)
  else if tag = "source:album" then
    let p ← v.getField "parameters"
    let i ← parseIdArgs p
    pure (.Album ⟨i⟩)
  else if tag = "source:user_liked_tracks" then
    let p ← v.getField "parameters"
    let a ← parseUserLikedTracksArgs p
    pure (.UserLikedTracks a)
  else if tag = "filter:take" then
    let p ← v.getField "parameters"
    let a ← parseTakeArgs p
    pure (.Take a)
  else if tag = "filter:dedup_artist" then
    let p ← v.getField "parameters"
    let _ ← parseEmptyArgs p
    pure (.DeduplicateArtist ⟨⟩)
  else if tag = "filter:dedup_track" then
    let p ← v.getField "parameters"
    let _ ← parseEmptyArgs p
    pure (.DeduplicateTrack ⟨⟩)
  else
    none

/-- Deserialization of a node value as `NonExhaustive<Component>`: the
serde `untagged` representation first attempts the `Known` variant, and
on any failure falls back to `Unknown`, which accepts every JSON value.
Deserialization therefore never fails. -/
def parseNonExhaustive (v : JValue) : NonExhaustive Component :=
  match parseComponent v with
  | some c => .Known c
  | none => .Unknown v

namespace Take

/-- `Take::execute` from `filter_take.rs`.  `prev.first().unwrap()`
panics (`none`) when `prev` is empty; otherwise, for `from == "end"` the
input is reversed and truncated to `limit` items, else the first `limit`
items are taken. -/
def execute (args : TakeArgs) (prev : List TrackList) : Option TrackList :=
  match prev.head? with
  | none => none
  | some tracks =>
      if args.makeFrom = "end" then
        some (tracks.reverse.take args.limit)
      else
        some (tracks.take args.limit)

end Take

/-- The deduplication key used by `DeduplicateTrack::execute`: the stable
track id when present, else `"{name}:{primary artist name}"` (empty
artist name when the track has no artists). -/
def trackKey (track : FullTrack) : String :=
  match track.id with
  | some i => i
  | none =>
      let artistName := match track.artists.head? with
        | some a => a.name
        | none => ""
      track.name ++ ":" ++ artistName

/-- The body of the `for track in tracks` loop of
`DeduplicateTrack::execute`, with the `seen_track_ids` set modelled as a
list of keys. -/
def dedupTrackGo (seen : List String) : List FullTrack → List FullTrack
  | [] => []
  | t :: ts =>
      let k := trackKey t
      if k ∈ seen then dedupTrackGo seen ts
      else t :: dedupTrackGo (k :: seen) ts

namespace DeduplicateTrack

/-- `DeduplicateTrack::execute` from `filter_dedup_track.rs`: empty
`prev` short-circuits to `Ok(Vec::new())`; otherwise the first
predecessor output is deduplicated by `trackKey`, keeping first
occurrences. -/
def execute (_args : DeduplicateTrackArgs) (prev : List TrackList) :
    Option TrackList :=
  match prev with
  | [] => some []
  | tracks :: _ => some (dedupTrackGo [] tracks)

end DeduplicateTrack

/-- The deduplication key used by `DeduplicateArtist::execute` for the
primary (first-listed) artist: the stable artist id when present, else
the artist display name. -/
def artistKey (a : SimplifiedArtist) : String :=
  match a.id with
  | some i => i
  | none => a.name

/-- The key of a track as seen by `DeduplicateArtist::execute`: the
primary-artist key, or `none` when the track has no artists. -/
def primaryKey (t : FullTrack) : Option String :=
  (t.artists.head?).map artistKey

/-- The body of the `for track in tracks` loop of
`DeduplicateArtist::execute`, with the `seen_artists` set modelled as a
list of keys.  A track with no artists is always kept. -/
def dedupArtistGo (seen : List String) : List FullTrack → List FullTrack
  | [] => []
  | t :: ts =>
      match t.artists.head? with
      | some pa =>
          let k := artistKey pa
          if k ∈ seen then dedupArtistGo seen ts
          else t :: dedupArtistGo (k :: seen) ts
      | none => t :: dedupArtistGo seen ts

namespace DeduplicateArtist

/-- `DeduplicateArtist::execute` from `filter_dedup_artist.rs`: empty
`prev` short-circuits to `Ok(Vec::new())`; otherwise the first
predecessor output is deduplicated by primary-artist key, keeping first
occurrences and always keeping tracks with no artists. -/
def execute (_args : DeduplicateArtistArgs) (prev : List TrackList) :
    Option TrackList :=
  match prev with
  | [] => some []
  | tracks :: _ => some (dedupArtistGo [] tracks)

end DeduplicateArtist

namespace UserLikedTracks

/-- The paging loop of `UserLikedTracks::execute`.  The Spotify client is
modelled as a `provider` mapping a page offset to the items of the page
fetched at that offset (`current_user_saved_tracks_manual` with page
size 50).  The loop breaks when the offset has reached `949` or the
fetched page is empty — in both cases before appending the page just
fetched — and otherwise appends the page and advances the offset by the
page's length. -/
def likedGo (provider : Nat → TrackList) (offset : Nat) (acc : TrackList) :
    TrackList :=
  if h : 949 ≤ offset ∨ provider offset = [] then acc
  else
    likedGo provider (offset + (provider offset).length)
      (acc ++ provider offset)
termination_by 949 - offset
decreasing_by
  push_neg at h
  obtain ⟨h1, h2⟩ := h
  have hpos : 0 < (provider offset).length := List.length_pos.mpr h2
  omega

/-- `UserLikedTracks::execute` from `source_user_liked_tracks.rs`: runs
the paging loop from offset `0` with an empty accumulator.  Note that
`args` (the `limit` parameter) does not occur in the loop. -/
def execute (_args : UserLikedTracksArgs) (provider : Nat → TrackList) :
    TrackList :=
  likedGo provider 0 []

end UserLikedTracks

/-- `Edge` from `controller.rs`: an ordered pair `(src, dst)` of node
ids (`Uuid` modelled as `Nat`). -/
abbrev Edge : Type := Nat × Nat

/-- `Batch` from `controller.rs`: a `Vec<Uuid>`. -/
abbrev Batch : Type := List Nat

/-- `Schedule` from `controller.rs`: a `Vec<Batch>`. -/
abbrev Schedule : Type := List Batch

/-- The `Cache` (`ResultCache`) from `controller.rs`:
`HashMap<Uuid, TrackList>`, modelled as an association list with
distinct keys. -/
abbrev Cache : Type := List (Nat × TrackList)

/-- `UserDefinedFlow` from `controller.rs`: the node map (key insertion
order abstracted as a list of key/value pairs) and the edge list. -/
structure UserDefinedFlow where
  nodes : List (Nat × NonExhaustive Component)
  edges : List Edge

/-- The key set of the `nodes` map, in a fixed enumeration order
(a `HashMap` enumerates keys in unspecified order; batch membership, the
property the claims are about, does not depend on this order). -/
def UserDefinedFlow.nodeIds (f : UserDefinedFlow) : List Nat :=
  f.nodes.map Prod.fst

/-- The adjacency list of `u` as built by the
`adj_list.entry(src).or_default().push(dst)` loop of `build_schedule`:
the destinations of the edges with source `u`, in edge-declaration
order. -/
def adjOf (f : UserDefinedFlow) (u : Nat) : List Nat :=
  (f.edges.filter (fun e => decide (e.1 = u))).map Prod.snd

/-- The key set of the `in_degree` map of `build_schedule`: every node
id, plus (via `in_degree.entry(dst).or_default()`) every edge
destination that is not a node id. -/
def inDegKeys (f : UserDefinedFlow) : List Nat :=
  f.nodeIds ++
    ((f.edges.map Prod.snd).filter (fun v => decide (v ∉ f.nodeIds))).dedup

/-- The initial in-degree of `v` as computed by the
`*in_degree.entry(dst).or_default() += 1` loop: the number of edges with
destination `v`. -/
def deg0 (f : UserDefinedFlow) (v : Nat) : Nat :=
  (f.edges.filter (fun e => decide (e.2 = v))).length

/-- The number of edges into `v` whose source is not in `prev`: the
in-degree of `v` after the decrements contributed by the
already-processed nodes `prev`. -/
def dAfter (f : UserDefinedFlow) (prev : List Nat) (v : Nat) : Nat :=
  (f.edges.filter (fun e => decide (e.2 = v ∧ e.1 ∉ prev))).length

/-- One step of the inner `for &neighbor in neighbors` loop of
`build_schedule`: if the neighbor is a key of `in_degree`
(`if let Some(degree) = updated_in_degree.get_mut(&neighbor)`), its
degree is decremented, and it is appended to the next batch when the
degree reaches `0`.  The state is the pair (in-degree map as a function,
next batch so far). -/
def bumpNext (f : UserDefinedFlow) (st : (Nat → Nat) × Batch) (v : Nat) :
    (Nat → Nat) × Batch :=
  if v ∈ inDegKeys f then
    let d := st.1 v - 1
    (fun w => if w = v then d else st.1 w,
     if d = 0 then st.2 ++ [v] else st.2)
  else st

/-- The `for &node_id in &processed_nodes` body: decrement every
neighbor of `u`, in adjacency order. -/
def stepNode (f : UserDefinedFlow) (st : (Nat → Nat) × Batch) (u : Nat) :
    (Nat → Nat) × Batch :=
  (adjOf f u).foldl (bumpNext f) st

/-- One iteration of the `while !processed_nodes.is_empty()` loop of
`build_schedule`: process every node of the current batch, producing the
updated in-degree map and the next batch. -/
def stepBatch (f : UserDefinedFlow) (deg : Nat → Nat) (P : Batch) :
    (Nat → Nat) × Batch :=
  P.foldl (stepNode f) (deg, [])

/-- The `while` loop of `build_schedule`.  The Rust loop has no fuel; in
this embedding a fuel argument makes the recursion structural, and
`build_schedule` supplies fuel proven sufficient for every state the
loop is actually entered in (`none` marks the unreachable exhaustion). -/
def loopSched (f : UserDefinedFlow) :
    Nat → (Nat → Nat) → Batch → Schedule → Option Schedule
  | 0, _, _, _ => none
  | fuel + 1, deg, P, sched =>
      if P = [] then some sched
      else
        let st := stepBatch f deg P
        loopSched f fuel st.1 st.2
          (if st.2 = [] then sched else sched ++ [st.2])

/-- The error message of `build_schedule` when the non-empty graph has
no node of in-degree `0`. -/
def cycleMsg : String := "Cycle detected in the flow graph"

/-- The error message of `build_schedule` when the loop terminates with
unscheduled nodes remaining. -/
def unableMsg : String := "Unable to schedule all nodes - possible cycle detected"

/-- Sentinel for the unreachable fuel-exhaustion branch of the embedded
loop (proved unreachable for every flow with distinct node ids). -/
def fuelMsg : String := "unreachable: loop fuel exhausted"

/-- `UserDefinedFlow::build_schedule` from `controller.rs`: level-based
Kahn topological sort.  Computes in-degrees, errors with `cycleMsg` when
a non-empty graph has no in-degree-`0` node, runs the level loop, and
errors with `unableMsg` when the count of distinct scheduled nodes
(a `HashSet`) differs from the node count. -/
def UserDefinedFlow.build_schedule (f : UserDefinedFlow) :
    Except String Schedule :=
  let first := (inDegKeys f).filter (fun v => decide (deg0 f v = 0))
  if first = [] ∧ f.nodes.isEmpty = false then
    .error cycleMsg
  else
    let sched0 : Schedule := if first = [] then [] else [first]
    match loopSched f ((inDegKeys f).length + 1) (deg0 f) first sched0 with
    | none => .error fuelMsg
    | some sched =>
        if (sched.flatten.dedup).length ≠ f.nodes.length then .error unableMsg
        else .ok sched

/-- `self.nodes.get(node_id)` in `execute_batch`. -/
def lookupNode (f : UserDefinedFlow) (id : Nat) :
    Option (NonExhaustive Component) :=
  (f.nodes.find? (fun kv => kv.1 == id)).map Prod.snd

/-- `HashMap::insert` on the result cache: replaces the entry for `id`
when present, otherwise appends it. -/
def cacheInsert (cache : Cache) (id : Nat) (v : TrackList) : Cache :=
  if cache.any (fun kv => kv.1 == id) then
    cache.map (fun kv => if kv.1 == id then (id, v) else kv)
  else cache ++ [(id, v)]

/-- `UserDefinedFlow::execute_batch` from `controller.rs`.  For each node
id of the batch a thread is spawned which unwraps the node
(`self.nodes.get(node_id).unwrap()`, then `node.clone().unwrap()` —
both panics when they fail, modelled as `none`: the panic propagates
through `h.join().unwrap()`), sleeps, prints the component name, and
inserts an **empty** `TrackList` into the result cache
(`result_cache.write().unwrap().insert(*node_id, Vec::new())`).  No
component `execute` is invoked and no predecessor output is read. -/
def UserDefinedFlow.execute_batch (f : UserDefinedFlow) :
    Batch → Cache → Option Cache
  | [], cache => some cache
  | id :: rest, cache =>
      match lookupNode f id with
      | none => none
      | some node =>
          match node.unwrap with
          | none => none
          | some _ => f.execute_batch rest (cacheInsert cache id [])

/-- The `for batch in self.build_schedule()?.iter()` loop of
`UserDefinedFlow::execute`. -/
def UserDefinedFlow.executeBatches (f : UserDefinedFlow) :
    Schedule → Cache → Option Cache
  | [], cache => some cache
  | b :: rest, cache =>
      match f.execute_batch b cache with
      | none => none
      | some cache2 => f.executeBatches rest cache2

/-- `UserDefinedFlow::execute` from `controller.rs`: builds the
schedule (propagating its error), creates a fresh empty cache, and runs
every batch in order.  The Rust function returns `Result<()>` and drops
the cache; the embedding returns the final cache state so that
properties about it can be stated.  `none` models a panic. -/
def UserDefinedFlow.execute (f : UserDefinedFlow) :
    Option (Except String Cache) :=
  match f.build_schedule with
  | .error e => some (.error e)
  | .ok sched => (f.executeBatches sched []).map .ok

/-- The pages traversed by the `UserLikedTracks` loop, without the
accumulator: the concatenation, in provider order, of the pages fetched
and appended before the stopping iteration (the loop stops — before
appending — once the offset reaches `949` or the fetched page is
empty). -/
def pagesConcat (provider : Nat → TrackList) (offset : Nat) : TrackList :=
  if h : 949 ≤ offset ∨ provider offset = [] then []
  else
    provider offset ++ pagesConcat provider (offset + (provider offset).length)
termination_by 949 - offset
decreasing_by
  push_neg at h
  obtain ⟨h1, h2⟩ := h
  have hpos : 0 < (provider offset).length := List.length_pos.mpr h2
  omega

lemma likedGo_eq_acc_append (provider : Nat → TrackList) (offset : Nat)
    (acc : TrackList) :
    UserLikedTracks.likedGo provider offset acc = acc ++ pagesConcat provider offset := by
  rw [UserLikedTracks.likedGo, pagesConcat]
  split
  · simp
  · rw [likedGo_eq_acc_append provider (offset + (provider offset).length)]
    simp
termination_by 949 - offset
decreasing_by
  rename_i h
  push_neg at h
  obtain ⟨h1, h2⟩ := h
  have hpos : 0 < (provider offset).length := List.length_pos.mpr h2
  omega

lemma dedupArtistGo_sublist (seen : List String) (ts : List FullTrack) :
    (dedupArtistGo seen ts).Sublist ts := by
  induction ts generalizing seen with
  | nil => simp [dedupArtistGo]
  | cons t ts ih =>
      rw [dedupArtistGo]
      cases h : t.artists.head? with
      | some pa =>
          dsimp only
          split
          · exact (ih seen).trans (List.sublist_cons_self t ts)
          · exact (ih _).cons₂ t
      | none => exact (ih seen).cons₂ t

lemma dedupArtistGo_filter_noartist (seen : List String) (ts : List FullTrack) :
    (dedupArtistGo seen ts).filter (fun t => t.artists.isEmpty) =
      ts.filter (fun t => t.artists.isEmpty) := by
  induction ts generalizing seen with
  | nil => simp [dedupArtistGo]
  | cons t ts ih =>
      rw [dedupArtistGo]
      cases h : t.artists.head? with
      | some pa =>
          have hne : t.artists.isEmpty = false := by
            cases ht : t.artists with
            | nil => rw [ht] at h; simp at h
            | cons a l => simp [ht]
          dsimp only
          split
          · rw [ih seen, List.filter_cons, hne]
            simp
          · rw [List.filter_cons, hne, ih (artistKey pa :: seen),
              List.filter_cons, hne]
      | none =>
          have he : t.artists.isEmpty = true := by
            cases ht : t.artists with
            | nil => simp [ht]
            | cons a l => rw [ht] at h; simp at h
          rw [List.filter_cons, he, ih seen, List.filter_cons, he]

lemma dedupArtistGo_filter_key (seen : List String) (ts : List FullTrack)
    (k : String) :
    (dedupArtistGo seen ts).filter (fun t => primaryKey t == some k) =
      if k ∈ seen then []
      else (ts.filter (fun t => primaryKey t == some k)).take 1 := by
  induction ts generalizing seen with
  | nil => simp [dedupArtistGo]
  | cons t ts ih =>
      rw [dedupArtistGo]
      cases h : t.artists.head? with
      | some pa =>
          have hpk : primaryKey t = some (artistKey pa) := by
            simp [primaryKey, h]
          dsimp only
          by_cases hmem : artistKey pa ∈ seen
          · rw [if_pos hmem, ih seen]
            by_cases hk : k ∈ seen
            · simp [hk]
            · have hne : (primaryKey t == some k) = false := by
                refine beq_eq_false_iff_ne.mpr ?_
                rw [hpk]
                intro he
                injection he with he2
                exact hk (he2 ▸ hmem)
              simp [hk, List.filter_cons, hne]
          · rw [if_neg hmem]
            by_cases hk : k = artistKey pa
            · subst hk
              have htr : (primaryKey t == some (artistKey pa)) = true := by
                simp [hpk]
              rw [List.filter_cons, htr]
              simp only [if_true]
              rw [ih (artistKey pa :: seen)]
              simp [List.filter_cons, htr, hmem]
            · have hne : (primaryKey t == some k) = false := by
                refine beq_eq_false_iff_ne.mpr ?_
                rw [hpk]
                intro he
                injection he with he2
                exact hk he2.symm
              rw [List.filter_cons, hne]
              simp only [Bool.false_eq_true, if_false]
              rw [ih (artistKey pa :: seen)]
              have hiff : (k ∈ artistKey pa :: seen) ↔ k ∈ seen := by
                simp [List.mem_cons, hk]
              by_cases hks : k ∈ seen
              · simp [hks, hiff.mpr hks]
              · rw [if_neg (fun hc => hks (hiff.mp hc)), if_neg hks,
                  List.filter_cons, hne]
                simp
      | none =>
          have hpk : primaryKey t = none := by simp [primaryKey, h]
          have hne : (primaryKey t == some k) = false := by
            refine beq_eq_false_iff_ne.mpr ?_
            rw [hpk]
            exact fun he => by injection he
          rw [List.filter_cons, hne]
          simp only [Bool.false_eq_true, if_false]
          rw [ih seen]
          by_cases hk : k ∈ seen
          · simp [hk]
          · rw [if_neg hk, if_neg hk, List.filter_cons, hne]
            simp

/-- C5: for every input TrackList and every limit, `Take::execute` with
`from == "end"` returns the reversal of the input truncated to the first
`limit` items, and with any other `from` value the first `limit` items
in original order; `limit == 0` yields the empty list, and a limit at
least the input length yields the whole (possibly reversed) input. -/
theorem take_execute_spec (l : Nat) (fr : String) (ts : TrackList)
    (rest : List TrackList) :
    Take.execute ⟨l, fr⟩ (ts :: rest) =
      some (if fr = "end" then ts.reverse.take l else ts.take l) ∧
    (l = 0 → Take.execute ⟨l, fr⟩ (ts :: rest) = some []) ∧
    (ts.length ≤ l → fr = "end" →
      Take.execute ⟨l, fr⟩ (ts :: rest) = some ts.reverse) ∧
    (ts.length ≤ l → fr ≠ "end" →
      Take.execute ⟨l, fr⟩ (ts :: rest) = some ts) := by
  refine ⟨?_, ?_, ?_, ?_⟩
  · by_cases h : fr = "end" <;> simp [Take.execute, h]
  · intro h0
    subst h0
    by_cases h : fr = "end" <;> simp [Take.execute, h]
  · intro hlen hend
    have hrev : ts.reverse.length ≤ l := by simpa using hlen
    simp [Take.execute, hend, List.take_of_length_le hrev]
  · intro hlen hend
    simp [Take.execute, hend, List.take_of_length_le hlen]

/-- Witness for C5 at a concrete input: three tracks, `limit = 2`,
`from = "end"`. -/
theorem take_execute_spec_witness :
    Take.execute ⟨2, "end"⟩
        [[⟨some "t1", [], "a"⟩, ⟨some "t2", [], "b"⟩, ⟨some "t3", [], "c"⟩]] =
      some (if "end" = "end" then
        ([⟨some "t1", [], "a"⟩, ⟨some "t2", [], "b"⟩,
          (⟨some "t3", [], "c"⟩ : FullTrack)].reverse).take 2
        else [⟨some "t1", [], "a"⟩, ⟨some "t2", [], "b"⟩,
          ⟨some "t3", [], "c"⟩].take 2) :=
  (take_execute_spec 2 "end"
    [⟨some "t1", [], "a"⟩, ⟨some "t2", [], "b"⟩, ⟨some "t3", [], "c"⟩] []).1

/-- C6 counterexample: `Take::execute` called with an empty
`predecessorOutputs` vector panics (`prev.first().unwrap()` on an empty
`Vec`), modelled as `none`; it does not return a `Result`. -/
theorem take_execute_empty_prev_panics :
    Take.execute ⟨3, "start"⟩ [] = none := rfl

/-- C6 amended: the deduplication filters return `Ok` on an empty
`predecessorOutputs` vector, but `Take::execute` panics on it. -/
theorem filters_empty_prev_behavior :
    (∀ args : TakeArgs, Take.execute args [] = none) ∧
    (∀ args : DeduplicateTrackArgs, DeduplicateTrack.execute args [] = some []) ∧
    (∀ args : DeduplicateArtistArgs, DeduplicateArtist.execute args [] = some []) :=
  ⟨fun _ => rfl, fun _ => rfl, fun _ => rfl⟩

/-- C7: `DeduplicateArtist::execute` returns the input with, per
primary-artist key (stable id of the first-listed artist, else its
name), only the first occurrence kept; tracks without artists are all
kept; the output is a sublist of the input (relative order preserved).
Secondary artists play no role: the key filter property per key `k`
fully determines the output next to the sublist property. -/
theorem dedupArtist_execute_spec (ts : TrackList) (rest : List TrackList) :
    DeduplicateArtist.execute ⟨⟩ (ts :: rest) = some (dedupArtistGo [] ts) ∧
    (dedupArtistGo [] ts).Sublist ts ∧
    (dedupArtistGo [] ts).filter (fun t => t.artists.isEmpty) =
      ts.filter (fun t => t.artists.isEmpty) ∧
    ∀ k : String,
      (dedupArtistGo [] ts).filter (fun t => primaryKey t == some k) =
        (ts.filter (fun t => primaryKey t == some k)).take 1 := by
  refine ⟨rfl, dedupArtistGo_sublist [] ts, dedupArtistGo_filter_noartist [] ts,
    fun k => ?_⟩
  simpa using dedupArtistGo_filter_key [] ts k

/-- C10: both deduplication filters short-circuit to `Ok(Vec::new())`
when called with an empty `predecessorOutputs` vector. -/
theorem dedup_execute_empty_prev_ok :
    (∀ args : DeduplicateTrackArgs, DeduplicateTrack.execute args [] = some []) ∧
    (∀ args : DeduplicateArtistArgs, DeduplicateArtist.execute args [] = some []) :=
  ⟨fun _ => rfl, fun _ => rfl⟩

/-- C9 counterexample: with `limit = 1` and a provider having two items
in its first page, `UserLikedTracks::execute` returns both items — the
configured `limit` parameter is not a bound on the result. -/
theorem userLikedTracks_limit_not_bound :
    (UserLikedTracks.execute ⟨1⟩
      (fun o => if o = 0 then [⟨some "a", [], "ta"⟩, ⟨some "b", [], "tb"⟩]
        else [])).length = 2 := by
  rw [UserLikedTracks.execute, UserLikedTracks.likedGo]
  norm_num
  rw [UserLikedTracks.likedGo]
  norm_num
  simp

/-- C9 amended: `UserLikedTracks::execute` ignores its `limit`
argument entirely; it returns the concatenation, in provider order, of
the pages fetched and appended before the stopping iteration, where the
loop stops once the offset reaches the hardcoded `949` bound or the
fetched page is empty (the page fetched on the stopping iteration is
discarded). -/
theorem userLikedTracks_execute_spec :
    (∀ a b : UserLikedTracksArgs, ∀ p : Nat → TrackList,
      UserLikedTracks.execute a p = UserLikedTracks.execute b p) ∧
    (∀ a : UserLikedTracksArgs, ∀ p : Nat → TrackList,
      UserLikedTracks.execute a p = pagesConcat p 0) := by
  refine ⟨fun a b p => rfl, fun a p => ?_⟩
  simpa using likedGo_eq_acc_append p 0 []

/-- C8 counterexample: a node tagged with the unknown component kind
`combiner:zip` (a tag appearing in the repository's own test flow)
deserializes **successfully** as `NonExhaustive::Unknown` — not a
parse-time error — and executing a flow containing it panics at batch
execution time (`node.clone().unwrap()` on `Unknown`). -/
theorem unknown_component_parses_then_panics :
    parseNonExhaustive (.jobj [("component", .jstr "combiner:zip")]) =
      .Unknown (.jobj [("component", .jstr "combiner:zip")]) ∧
    UserDefinedFlow.execute
        ⟨[(7, .Unknown (.jobj [("component", .jstr "combiner:zip")]))], []⟩ =
      none :=
  ⟨rfl, rfl⟩

/-- C8 amended: any node value rejected by the `Component` deserializer
(unknown tag or schema-mismatched parameters) parses as
`NonExhaustive::Unknown` — flow parsing never fails on it — and a run
of a flow containing such a node panics when `execute_batch` unwraps
it. -/
theorem unknown_component_amended (v : JValue) (id : Nat)
    (h : parseComponent v = none) :
    parseNonExhaustive v = .Unknown v ∧
    UserDefinedFlow.execute ⟨[(id, .Unknown v)], []⟩ = none := by
  constructor
  · rw [parseNonExhaustive, h]
  · have hsched :
        UserDefinedFlow.build_schedule ⟨[(id, .Unknown v)], []⟩ = .ok [[id]] := by
      simp [UserDefinedFlow.build_schedule, inDegKeys, UserDefinedFlow.nodeIds,
        deg0, loopSched, stepBatch, stepNode, adjOf, List.filter]
    rw [UserDefinedFlow.execute, hsched]
    simp [UserDefinedFlow.executeBatches, UserDefinedFlow.execute_batch,
      lookupNode, NonExhaustive.unwrap]

/-- Witness for the C8 amended theorem at the `combiner:zip` node. -/
theorem unknown_component_amended_witness :
    parseNonExhaustive (.jobj [("component", .jstr "combiner:zip")]) =
      .Unknown (.jobj [("component", .jstr "combiner:zip")]) ∧
    UserDefinedFlow.execute
        ⟨[(9, .Unknown (.jobj [("component", .jstr "combiner:zip")]))], []⟩ =
      none :=
  unknown_component_amended (.jobj [("component", .jstr "combiner:zip")]) 9 rfl

/-- C3 (code gap): executing a single-node flow containing a
`filter:take` component completes successfully with an **empty**
`TrackList` cached for the node, although the component's own
`execute`, given its gathered (empty) predecessor outputs, would panic
and produce no output at all: `execute_batch` never invokes component
`execute` and stores `Vec::new()` for every node. -/
theorem executor_never_invokes_component_execute :
    UserDefinedFlow.execute
        ⟨[(0, .Known (.Take ⟨1, "start"⟩))], []⟩ =
      some (.ok [(0, [])]) ∧
    Take.execute ⟨1, "start"⟩ [] = none :=
  ⟨rfl, rfl⟩

/-- C4 counterexample: the flow with the single node `0` and the edge
`(0, 1)` — an edge whose destination is missing from the node map — is
not rejected at construction: `build_schedule` runs on it and returns
the `unableMsg` "possible cycle" error (there is no
`MalformedGraphError` anywhere in the code). -/
theorem dangling_edge_reported_as_cycle :
    UserDefinedFlow.build_schedule ⟨[(0, .Unknown .jnull)], [(0, 1)]⟩ =
      .error unableMsg :=
  rfl



/-- Total number of edges into `v` whose source lies in `P` (the number
of decrements applied to `v`'s in-degree when the batch `P` is
processed, `P` having no duplicates). -/
def cntFrom (f : UserDefinedFlow) (P : List Nat) (v : Nat) : Nat :=
  (f.edges.filter (fun e => decide (e.1 ∈ P ∧ e.2 = v))).length

lemma length_filter_mono_of_imp {α : Type} (es : List α) (p q : α → Bool)
    (h : ∀ e ∈ es, p e = true → q e = true) :
    (es.filter p).length ≤ (es.filter q).length := by
  induction es with
  | nil => simp
  | cons e es ih =>
      have ih2 := ih (fun x hx => h x (List.mem_cons_of_mem e hx))
      by_cases hp : p e = true
      · rw [List.filter_cons_of_pos hp, List.filter_cons_of_pos (h e (List.mem_cons_self e es) hp)]
        simpa using ih2
      · rw [List.filter_cons_of_neg (by simpa using hp)]
        by_cases hq : q e = true
        · rw [List.filter_cons_of_pos hq]
          exact ih2.trans (Nat.le_succ _)
        · rw [List.filter_cons_of_neg (by simpa using hq)]
          exact ih2

lemma cntFrom_nil (f : UserDefinedFlow) (v : Nat) : cntFrom f [] v = 0 := by
  simp [cntFrom]

lemma count_adjOf_aux (es : List Edge) (u v : Nat) :
    ((es.filter (fun e => decide (e.1 = u))).map Prod.snd).count v =
      (es.filter (fun e => decide (e.1 = u ∧ e.2 = v))).length := by
  induction es with
  | nil => simp
  | cons e es ih =>
      by_cases h1 : e.1 = u <;> by_cases h2 : e.2 = v <;>
        simp [h1, h2, List.count_cons, ih]

lemma count_adjOf (f : UserDefinedFlow) (u v : Nat) :
    (adjOf f u).count v =
      (f.edges.filter (fun e => decide (e.1 = u ∧ e.2 = v))).length :=
  count_adjOf_aux f.edges u v

lemma length_filter_cons {A : Type} (x : A) (es : List A) (p : A → Bool) :
    ((x :: es).filter p).length = (if p x = true then 1 else 0) + (es.filter p).length := by
  by_cases h : p x = true
  · rw [List.filter_cons_of_pos h, if_pos h, List.length_cons]
    omega
  · rw [List.filter_cons_of_neg (by simpa using h), if_neg h]
    omega

lemma cntFrom_cons_aux (es : List Edge) (u : Nat) (P : List Nat) (v : Nat)
    (hu : u ∉ P) :
    (es.filter (fun e => decide (e.1 ∈ u :: P ∧ e.2 = v))).length =
      (es.filter (fun e => decide (e.1 = u ∧ e.2 = v))).length +
        (es.filter (fun e => decide (e.1 ∈ P ∧ e.2 = v))).length := by
  induction es with
  | nil => simp
  | cons e es ih =>
      rw [length_filter_cons, length_filter_cons, length_filter_cons, ih]
      by_cases h2 : e.2 = v
      · by_cases h1 : e.1 = u
        · have c1 : decide (e.1 ∈ u :: P ∧ e.2 = v) = true :=
            decide_eq_true ⟨List.mem_cons.mpr (Or.inl h1), h2⟩
          have c2 : decide (e.1 = u ∧ e.2 = v) = true := decide_eq_true ⟨h1, h2⟩
          have c3 : decide (e.1 ∈ P ∧ e.2 = v) = false :=
            decide_eq_false (fun hc => hu (h1 ▸ hc.1))
          rw [c1, c2, c3]
          simp
          try omega
        · by_cases hP : e.1 ∈ P
          · have c1 : decide (e.1 ∈ u :: P ∧ e.2 = v) = true :=
              decide_eq_true ⟨List.mem_cons.mpr (Or.inr hP), h2⟩
            have c2 : decide (e.1 = u ∧ e.2 = v) = false :=
              decide_eq_false (fun hc => h1 hc.1)
            have c3 : decide (e.1 ∈ P ∧ e.2 = v) = true := decide_eq_true ⟨hP, h2⟩
            rw [c1, c2, c3]
            simp
            try omega
          · have c1 : decide (e.1 ∈ u :: P ∧ e.2 = v) = false :=
              decide_eq_false (fun hc => (List.mem_cons.mp hc.1).elim h1 hP)
            have c2 : decide (e.1 = u ∧ e.2 = v) = false :=
              decide_eq_false (fun hc => h1 hc.1)
            have c3 : decide (e.1 ∈ P ∧ e.2 = v) = false :=
              decide_eq_false (fun hc => hP hc.1)
            rw [c1, c2, c3]
            simp
            try omega
      · have c1 : decide (e.1 ∈ u :: P ∧ e.2 = v) = false :=
          decide_eq_false (fun hc => h2 hc.2)
        have c2 : decide (e.1 = u ∧ e.2 = v) = false :=
          decide_eq_false (fun hc => h2 hc.2)
        have c3 : decide (e.1 ∈ P ∧ e.2 = v) = false :=
          decide_eq_false (fun hc => h2 hc.2)
        rw [c1, c2, c3]
        simp
        try omega

lemma cntFrom_cons (f : UserDefinedFlow) (u : Nat) (P : List Nat) (v : Nat)
    (hu : u ∉ P) :
    cntFrom f (u :: P) v = (adjOf f u).count v + cntFrom f P v := by
  rw [cntFrom, cntFrom, count_adjOf]
  exact cntFrom_cons_aux f.edges u P v hu

lemma dAfter_append_aux (es : List Edge) (prev P : List Nat) (v : Nat)
    (hdisj : ∀ u ∈ P, u ∉ prev) :
    (es.filter (fun e => decide (e.2 = v ∧ e.1 ∉ prev))).length =
      (es.filter (fun e => decide (e.2 = v ∧ e.1 ∉ prev ++ P))).length +
        (es.filter (fun e => decide (e.1 ∈ P ∧ e.2 = v))).length := by
  induction es with
  | nil => simp
  | cons e es ih =>
      rw [length_filter_cons, length_filter_cons, length_filter_cons, ih]
      by_cases h2 : e.2 = v
      · by_cases hP : e.1 ∈ P
        · have hprev : e.1 ∉ prev := hdisj e.1 hP
          have c1 : decide (e.2 = v ∧ e.1 ∉ prev) = true :=
            decide_eq_true ⟨h2, hprev⟩
          have c2 : decide (e.2 = v ∧ e.1 ∉ prev ++ P) = false :=
            decide_eq_false (fun hc => hc.2 (List.mem_append_right prev hP))
          have c3 : decide (e.1 ∈ P ∧ e.2 = v) = true := decide_eq_true ⟨hP, h2⟩
          rw [c1, c2, c3]
          simp
          try omega
        · by_cases hprev : e.1 ∈ prev
          · have c1 : decide (e.2 = v ∧ e.1 ∉ prev) = false :=
              decide_eq_false (fun hc => hc.2 hprev)
            have c2 : decide (e.2 = v ∧ e.1 ∉ prev ++ P) = false :=
              decide_eq_false (fun hc => hc.2 (List.mem_append_left P hprev))
            have c3 : decide (e.1 ∈ P ∧ e.2 = v) = false :=
              decide_eq_false (fun hc => hP hc.1)
            rw [c1, c2, c3]
            simp
            try omega
          · have c1 : decide (e.2 = v ∧ e.1 ∉ prev) = true :=
              decide_eq_true ⟨h2, hprev⟩
            have c2 : decide (e.2 = v ∧ e.1 ∉ prev ++ P) = true :=
              decide_eq_true ⟨h2, fun hc =>
                (List.mem_append.mp hc).elim hprev hP⟩
            have c3 : decide (e.1 ∈ P ∧ e.2 = v) = false :=
              decide_eq_false (fun hc => hP hc.1)
            rw [c1, c2, c3]
            simp
            try omega
      · have c1 : decide (e.2 = v ∧ e.1 ∉ prev) = false :=
          decide_eq_false (fun hc => h2 hc.1)
        have c2 : decide (e.2 = v ∧ e.1 ∉ prev ++ P) = false :=
          decide_eq_false (fun hc => h2 hc.1)
        have c3 : decide (e.1 ∈ P ∧ e.2 = v) = false :=
          decide_eq_false (fun hc => h2 hc.2)
        rw [c1, c2, c3]
        simp
        try omega

/-- Processing the disjoint batch `P` turns the in-degree relative to
`prev` into the in-degree relative to `prev ++ P`, subtracting exactly
`cntFrom f P v` decrements. -/
lemma dAfter_append (f : UserDefinedFlow) (prev P : List Nat) (v : Nat)
    (hdisj : ∀ u ∈ P, u ∉ prev) :
    dAfter f prev v = dAfter f (prev ++ P) v + cntFrom f P v :=
  dAfter_append_aux f.edges prev P v hdisj

lemma dAfter_nil (f : UserDefinedFlow) (v : Nat) :
    dAfter f [] v = deg0 f v := by
  unfold dAfter deg0
  congr 1
  apply List.filter_congr
  intro e _
  simp

lemma dAfter_mono (f : UserDefinedFlow) (S S2 : List Nat) (v : Nat)
    (h : ∀ u ∈ S, u ∈ S2) :
    dAfter f S2 v ≤ dAfter f S v := by
  apply length_filter_mono_of_imp
  intro e _
  simp only [decide_eq_true_eq]
  rintro ⟨h1, h2⟩
  exact ⟨h1, fun hc => h2 (h e.1 hc)⟩

/-- An in-degree of zero relative to `prev` means every edge into `v`
has its source in `prev`. -/
lemma dAfter_eq_zero_iff (f : UserDefinedFlow) (prev : List Nat) (v : Nat) :
    dAfter f prev v = 0 ↔ ∀ e ∈ f.edges, e.2 = v → e.1 ∈ prev := by
  unfold dAfter
  rw [List.length_eq_zero, List.filter_eq_nil_iff]
  constructor
  · intro h e he hv
    have := h e he
    simp only [decide_eq_true_eq] at this
    by_contra hc
    exact this ⟨hv, hc⟩
  · intro h e he
    simp only [decide_eq_true_eq]
    rintro ⟨hv, hnp⟩
    exact hnp (h e he hv)

lemma cntFrom_pos_dst_mem (f : UserDefinedFlow) (P : List Nat) (v : Nat)
    (h : cntFrom f P v ≠ 0) : v ∈ f.edges.map Prod.snd := by
  unfold cntFrom at h
  rw [Ne, List.length_eq_zero, ← Ne] at h
  obtain ⟨e, he⟩ := List.exists_mem_of_ne_nil _ h
  have he2 := List.mem_filter.mp he
  simp only [decide_eq_true_eq] at he2
  exact he2.2.2 ▸ List.mem_map_of_mem Prod.snd he2.1

lemma dsts_mem_inDegKeys (f : UserDefinedFlow) (v : Nat)
    (hv : v ∈ f.edges.map Prod.snd) : v ∈ inDegKeys f := by
  by_cases h : v ∈ f.nodeIds
  · exact List.mem_append_left _ h
  · refine List.mem_append_right _ ?_
    rw [List.mem_dedup]
    exact List.mem_filter.mpr ⟨hv, by simpa using h⟩

lemma adjOf_subset_inDegKeys (f : UserDefinedFlow) (u : Nat) :
    ∀ v ∈ adjOf f u, v ∈ inDegKeys f := by
  intro v hv
  apply dsts_mem_inDegKeys
  unfold adjOf at hv
  obtain ⟨e, he, hev⟩ := List.mem_map.mp hv
  exact hev ▸ List.mem_map_of_mem Prod.snd (List.mem_of_mem_filter he)

lemma bumpNext_eq (f : UserDefinedFlow) (deg : Nat → Nat) (acc : Batch)
    (n : Nat) (h : n ∈ inDegKeys f) :
    bumpNext f (deg, acc) n =
      (fun w => if w = n then deg n - 1 else deg w,
       if deg n - 1 = 0 then acc ++ [n] else acc) := by
  simp only [bumpNext, if_pos h]

/-- Characterization of the inner neighbor-decrement fold: starting from
the in-degree map `deg`, folding `bumpNext` over a neighbor list `ns`
(all of whose members are `in_degree` keys) subtracts the number of
occurrences in `ns` from each degree and appends to the accumulator
exactly those nodes whose positive degree is consumed to zero — each
exactly once — provided no degree is oversubscribed. -/
lemma bumpFold_spec (f : UserDefinedFlow) :
    ∀ (ns : List Nat) (deg : Nat → Nat) (acc : Batch),
      (∀ v ∈ ns, v ∈ inDegKeys f) →
      (∀ v, ns.count v ≤ deg v) →
      (∀ v, (ns.foldl (bumpNext f) (deg, acc)).1 v = deg v - ns.count v) ∧
      ∃ newly, (ns.foldl (bumpNext f) (deg, acc)).2 = acc ++ newly ∧
        newly.Nodup ∧
        (∀ v, v ∈ newly ↔ (deg v ≠ 0 ∧ deg v = ns.count v)) := by
  intro ns
  induction ns with
  | nil =>
      intro deg acc _ _
      refine ⟨fun v => by simp, [], by simp, List.nodup_nil, fun v => ?_⟩
      simp only [List.not_mem_nil, List.count_nil, false_iff]
      rintro ⟨h1, h2⟩
      exact h1 h2
  | cons n ns ih =>
      intro deg acc hns hbound
      have hnk : n ∈ inDegKeys f := hns n (List.mem_cons_self n ns)
      have hcn : (n :: ns).count n = ns.count n + 1 := by
        simp [List.count_cons]
      have hbn : ns.count n + 1 ≤ deg n := hcn ▸ hbound n
      have hccs : ∀ v, v ≠ n → (n :: ns).count v = ns.count v := by
        intro v hv
        have hv2 : ¬ n = v := fun hc => hv hc.symm
        rw [List.count_cons]
        simp [hv2]
      have hboundT : ∀ v, ns.count v ≤
          (fun w => if w = n then deg n - 1 else deg w) v := by
        intro v
        by_cases hv : v = n
        · subst hv
          simp
          omega
        · simp only [if_neg hv]
          have := hbound v
          rw [hccs v hv] at this
          exact this
      rw [List.foldl_cons, bumpNext_eq f deg acc n hnk]
      by_cases hd : deg n - 1 = 0
      · have hdeg1 : deg n = 1 := by omega
        have hcnt0 : ns.count n = 0 := by omega
        rw [if_pos hd]
        obtain ⟨hfst, newly, hsnd, hnodup, hmem⟩ :=
          ih (fun w => if w = n then deg n - 1 else deg w) (acc ++ [n])
            (fun v hv => hns v (List.mem_cons_of_mem n hv)) hboundT
        refine ⟨fun v => ?_, n :: newly, ?_, ?_, fun v => ?_⟩
        · rw [hfst v]
          by_cases hv : v = n
          · subst hv
            simp
            omega
          · simp only [if_neg hv]
            rw [hccs v hv]
        · rw [hsnd, List.append_assoc, List.singleton_append]
        · refine List.Nodup.cons (fun hc => ?_) hnodup
          have := (hmem n).mp hc
          simp at this
          exact this.1 hd
        · by_cases hv : v = n
          · subst hv
            simp only [List.mem_cons, true_or, true_iff]
            exact ⟨by omega, by omega⟩
          · rw [List.mem_cons]
            have hiff := hmem v
            simp only [if_neg hv] at hiff
            rw [hccs v hv]
            constructor
            · rintro (hc | hc)
              · exact absurd hc hv
              · exact hiff.mp hc
            · intro hc
              exact Or.inr (hiff.mpr hc)
      · rw [if_neg hd]
        obtain ⟨hfst, newly, hsnd, hnodup, hmem⟩ :=
          ih (fun w => if w = n then deg n - 1 else deg w) acc
            (fun v hv => hns v (List.mem_cons_of_mem n hv)) hboundT
        refine ⟨fun v => ?_, newly, hsnd, hnodup, fun v => ?_⟩
        · rw [hfst v]
          by_cases hv : v = n
          · subst hv
            simp
            omega
          · simp only [if_neg hv]
            rw [hccs v hv]
        · have hiff := hmem v
          by_cases hv : v = n
          · subst hv
            simp at hiff
            rw [hiff, hcn]
            constructor
            · rintro ⟨h1, h2⟩
              omega
            · rintro ⟨h1, h2⟩
              omega
          · simp only [if_neg hv] at hiff
            rw [hccs v hv]
            exact hiff

/-- Characterization of one whole batch step (`stepBatch`): processing
the duplicate-free batch `P` subtracts `cntFrom f P` from the in-degree
map and produces as next batch exactly the nodes whose positive degree
is consumed to zero, each exactly once. -/
lemma stepBatch_fold_spec (f : UserDefinedFlow) :
    ∀ (P : List Nat) (deg : Nat → Nat) (acc : Batch),
      P.Nodup →
      (∀ v, cntFrom f P v ≤ deg v) →
      (∀ v, (P.foldl (stepNode f) (deg, acc)).1 v = deg v - cntFrom f P v) ∧
      ∃ newly, (P.foldl (stepNode f) (deg, acc)).2 = acc ++ newly ∧
        newly.Nodup ∧
        (∀ v, v ∈ newly ↔ (deg v ≠ 0 ∧ deg v = cntFrom f P v)) := by
  intro P
  induction P with
  | nil =>
      intro deg acc _ _
      refine ⟨fun v => by simp [cntFrom_nil], [], by simp, List.nodup_nil,
        fun v => ?_⟩
      simp only [List.not_mem_nil, cntFrom_nil, false_iff]
      rintro ⟨h1, h2⟩
      exact h1 h2
  | cons u P ih =>
      intro deg acc hnd hbound
      have huP : u ∉ P := (List.nodup_cons.mp hnd).1
      have hndP : P.Nodup := (List.nodup_cons.mp hnd).2
      have hcons : ∀ v,
          cntFrom f (u :: P) v = (adjOf f u).count v + cntFrom f P v :=
        fun v => cntFrom_cons f u P v huP
      have hbound1 : ∀ v, (adjOf f u).count v ≤ deg v := by
        intro v
        have := hbound v
        rw [hcons v] at this
        omega
      obtain ⟨hfst1, newly1, hsnd1, hnd1, hmem1⟩ :=
        bumpFold_spec f (adjOf f u) deg acc (adjOf_subset_inDegKeys f u)
          hbound1
      rw [List.foldl_cons]
      have hstep : stepNode f (deg, acc) u =
          (adjOf f u).foldl (bumpNext f) (deg, acc) := rfl
      rw [hstep]
      have hbound2 : ∀ v, cntFrom f P v ≤
          ((adjOf f u).foldl (bumpNext f) (deg, acc)).1 v := by
        intro v
        rw [hfst1 v]
        have := hbound v
        rw [hcons v] at this
        omega
      obtain ⟨hfst2, newly2, hsnd2, hnd2, hmem2⟩ :=
        ih ((adjOf f u).foldl (bumpNext f) (deg, acc)).1
          ((adjOf f u).foldl (bumpNext f) (deg, acc)).2 hndP hbound2
      refine ⟨fun v => ?_, newly1 ++ newly2, ?_, ?_, fun v => ?_⟩
      · rw [hfst2 v, hfst1 v, hcons v]
        omega
      · rw [hsnd2, hsnd1, List.append_assoc]
      · refine List.Nodup.append hnd1 hnd2 ?_
        intro a ha1 ha2
        have h1 := (hmem1 a).mp ha1
        have h2 := (hmem2 a).mp ha2
        rw [hfst1 a] at h2
        omega
      · rw [List.mem_append, hmem1 v, hmem2 v, hfst1 v, hcons v]
        have := hbound v
        rw [hcons v] at this
        omega

/-- The nodes scheduled strictly before batch `k`. -/
def upTo (sched : Schedule) (k : Nat) : List Nat := (sched.take k).flatten

/-- The per-batch invariant established by the scheduling loop: batch
`k` consists exactly of the `in_degree` keys not yet scheduled whose
in-degree relative to the previously scheduled nodes is zero. -/
def SchedOK (f : UserDefinedFlow) (sched : Schedule) : Prop :=
  ∀ k, ∀ hk : k < sched.length, ∀ v,
    v ∈ sched.get ⟨k, hk⟩ ↔
      (v ∈ inDegKeys f ∧ dAfter f (upTo sched k) v = 0 ∧ v ∉ upTo sched k)

lemma upTo_subset_flatten (sched : Schedule) (k : Nat) :
    ∀ v ∈ upTo sched k, v ∈ sched.flatten := by
  intro v hv
  obtain ⟨b, hb, hvb⟩ := List.mem_flatten.mp hv
  exact List.mem_flatten.mpr ⟨b, List.take_subset k sched hb, hvb⟩

lemma exists_get_of_mem_flatten (sched : Schedule) (v : Nat)
    (h : v ∈ sched.flatten) :
    ∃ j, ∃ hj : j < sched.length, v ∈ sched.get ⟨j, hj⟩ := by
  obtain ⟨b, hb, hvb⟩ := List.mem_flatten.mp h
  obtain ⟨n, hn⟩ := List.mem_iff_get.mp hb
  exact ⟨n.1, n.2, hn ▸ hvb⟩

lemma mem_upTo_of_get (sched : Schedule) (j k : Nat) (hj : j < sched.length)
    (hjk : j < k) :
    ∀ v ∈ sched.get ⟨j, hj⟩, v ∈ upTo sched k := by
  intro v hv
  refine List.mem_flatten.mpr ⟨sched.get ⟨j, hj⟩, ?_, hv⟩
  have hlen : j < (sched.take k).length := by
    simp [List.length_take]
    omega
  have : (sched.take k).get ⟨j, hlen⟩ = sched.get ⟨j, hj⟩ := by
    simp [List.get_eq_getElem, List.getElem_take]
  exact this ▸ List.get_mem (sched.take k) j hlen

lemma mem_upTo_elim (sched : Schedule) (k v : Nat) (h : v ∈ upTo sched k) :
    ∃ j, ∃ hj : j < sched.length, j < k ∧ v ∈ sched.get ⟨j, hj⟩ := by
  obtain ⟨b, hb, hvb⟩ := List.mem_flatten.mp h
  obtain ⟨n, hn⟩ := List.mem_iff_get.mp hb
  have hlt : n.1 < sched.length ∧ n.1 < k := by
    have h2 : n.1 < min k sched.length := by
      simpa [List.length_take] using n.2
    omega
  have heq : sched.get ⟨n.1, hlt.1⟩ = b := by
    rw [← hn]
    simp [List.get_eq_getElem, List.getElem_take]
  exact ⟨n.1, hlt.1, hlt.2, heq ▸ hvb⟩

/-- In a `SchedOK` schedule the batches are pairwise disjoint: a node
occurs in at most one batch. -/
lemma schedOK_unique_batch (f : UserDefinedFlow) (sched : Schedule)
    (hSO : SchedOK f sched) (i j : Nat) (hi : i < sched.length)
    (hj : j < sched.length) (v : Nat) (hvi : v ∈ sched.get ⟨i, hi⟩)
    (hvj : v ∈ sched.get ⟨j, hj⟩) : i = j := by
  rcases Nat.lt_trichotomy i j with h | h | h
  · exact absurd (mem_upTo_of_get sched i j hi h v hvi)
      ((hSO j hj v).mp hvj).2.2
  · exact h
  · exact absurd (mem_upTo_of_get sched j i hj h v hvj)
      ((hSO i hi v).mp hvi).2.2

/-- Master invariant lemma for the `while` loop of `build_schedule`:
starting from any loop state satisfying the level invariant (degrees
reflect the unscheduled in-edges, the current batch is exactly the
newly-ready key set, the accumulated schedule satisfies `SchedOK`), the
loop terminates within the supplied fuel and returns a schedule that
satisfies `SchedOK`, has no empty batch and no duplicate, contains only
`in_degree` keys, and is closed under readiness. -/
lemma loopSched_master (f : UserDefinedFlow) (hkeys : (inDegKeys f).Nodup) :
    ∀ (fuel : Nat) (prev P : List Nat) (deg : Nat → Nat) (sched : Schedule),
      (inDegKeys f).length + 1 ≤ fuel + prev.length →
      (prev ++ P).Nodup →
      (∀ v ∈ prev ++ P, v ∈ inDegKeys f) →
      (∀ v, deg v = dAfter f prev v) →
      (∀ v, v ∈ P ↔ (v ∈ inDegKeys f ∧ dAfter f prev v = 0 ∧ v ∉ prev)) →
      SchedOK f sched →
      (∀ b ∈ sched, b ≠ []) →
      ((P = [] ∧ sched.flatten = prev) ∨
        (∃ sp, sched = sp ++ [P] ∧ sp.flatten = prev)) →
      ∃ sched2, loopSched f fuel deg P sched = some sched2 ∧
        SchedOK f sched2 ∧ (∀ b ∈ sched2, b ≠ []) ∧
        sched2.flatten.Nodup ∧
        (∀ v ∈ sched2.flatten, v ∈ inDegKeys f) ∧
        (∀ v ∈ inDegKeys f,
          dAfter f sched2.flatten v = 0 → v ∈ sched2.flatten) := by
  intro fuel
  induction fuel with
  | zero =>
      intro prev P deg sched hfuel hnd hsub hdeg hP hSO hne hstruct
      exfalso
      have hpnd : prev.Nodup := hnd.of_append_left
      have hsubp : prev ⊆ inDegKeys f :=
        fun v hv => hsub v (List.mem_append_left P hv)
      have hlen := (hpnd.subperm hsubp).length_le
      omega
  | succ fuel ihf =>
      intro prev P deg sched hfuel hnd hsub hdeg hP hSO hne hstruct
      by_cases hPnil : P = []
      · subst hPnil
        rw [loopSched, if_pos rfl]
        have hflat : sched.flatten = prev := by
          rcases hstruct with ⟨-, hf⟩ | ⟨sp, hsp, -⟩
          · exact hf
          · exfalso
            refine hne [] ?_ rfl
            rw [hsp]
            exact List.mem_append_right sp (List.mem_singleton.mpr rfl)
        refine ⟨sched, rfl, hSO, hne, ?_, ?_, ?_⟩
        · rw [hflat]
          simpa using hnd
        · rw [hflat]
          intro v hv
          exact hsub v (List.mem_append_left _ hv)
        · rw [hflat]
          intro v hvk hd0
          by_contra hvp
          have := (hP v).mpr ⟨hvk, hd0, hvp⟩
          simp at this
      · have hdisj : ∀ u ∈ P, u ∉ prev := by
          intro u hu hup
          exact (List.disjoint_of_nodup_append hnd) hup hu
        have hndP : P.Nodup := hnd.of_append_right
        have hboundP : ∀ v, cntFrom f P v ≤ deg v := by
          intro v
          rw [hdeg v, dAfter_append f prev P v hdisj]
          omega
        obtain ⟨hfst, newly, hsnd, hndN, hmemN⟩ :=
          stepBatch_fold_spec f P deg [] hndP hboundP
        have hsb : stepBatch f deg P = P.foldl (stepNode f) (deg, []) := rfl
        have hsnd2 : (stepBatch f deg P).2 = newly := by
          rw [hsb, hsnd, List.nil_append]
        have hdeg2 : ∀ v, (stepBatch f deg P).1 v = dAfter f (prev ++ P) v := by
          intro v
          rw [hsb, hfst v, hdeg v, dAfter_append f prev P v hdisj]
          omega
        have hmem2 : ∀ v, v ∈ newly ↔
            (dAfter f prev v ≠ 0 ∧ dAfter f (prev ++ P) v = 0) := by
          intro v
          rw [hmemN v, hdeg v]
          have := dAfter_append f prev P v hdisj
          omega
        have hP2 : ∀ v, v ∈ newly ↔
            (v ∈ inDegKeys f ∧ dAfter f (prev ++ P) v = 0 ∧
              v ∉ prev ++ P) := by
          intro v
          constructor
          · intro hv
            have h2 := (hmem2 v).mp hv
            have hkeysv : v ∈ inDegKeys f := by
              apply dsts_mem_inDegKeys
              apply cntFrom_pos_dst_mem f P v
              have h3 := (hmemN v).mp hv
              rw [hdeg v] at h3
              omega
            have hvnP : v ∉ P := by
              intro hc
              exact h2.1 ((hP v).mp hc).2.1
            have hvnprev : v ∉ prev := by
              intro hc
              rcases hstruct with ⟨hcnil, -⟩ | ⟨sp, hsp, hflat⟩
              · exact hPnil hcnil
              · subst hsp
                rw [← hflat] at hc
                obtain ⟨j, hj, hvj⟩ := exists_get_of_mem_flatten sp v hc
                have hjs : j < (sp ++ [P]).length := by
                  rw [List.length_append, List.length_singleton]
                  omega
                have hget : (sp ++ [P]).get ⟨j, hjs⟩ = sp.get ⟨j, hj⟩ :=
                  List.get_append j hj
                have hvj2 : v ∈ (sp ++ [P]).get ⟨j, hjs⟩ := by
                  rw [hget]
                  exact hvj
                have hd0 := ((hSO j hjs v).mp hvj2).2.1
                have hsubU : ∀ w ∈ upTo (sp ++ [P]) j, w ∈ prev := by
                  intro w hw
                  rw [← hflat]
                  apply upTo_subset_flatten sp j
                  rw [upTo] at hw ⊢
                  rw [List.take_append_of_le_length (le_of_lt hj)] at hw
                  exact hw
                have := dAfter_mono f (upTo (sp ++ [P]) j) prev v hsubU
                omega
            refine ⟨hkeysv, h2.2, ?_⟩
            intro hc
            rcases List.mem_append.mp hc with hc2 | hc2
            · exact hvnprev hc2
            · exact hvnP hc2
          · rintro ⟨hk, hd0, hnp⟩
            have hvnprev : v ∉ prev :=
              fun hc => hnp (List.mem_append_left P hc)
            rw [hmem2 v]
            refine ⟨fun hdz => ?_, hd0⟩
            exact hnp (List.mem_append_right prev
              ((hP v).mpr ⟨hk, hdz, hvnprev⟩))
        have hflat2 : sched.flatten = prev ++ P := by
          rcases hstruct with ⟨hcnil, -⟩ | ⟨sp, hsp, hflat⟩
          · exact absurd hcnil hPnil
          · rw [hsp, List.flatten_append]
            simp [hflat]
        rw [loopSched, if_neg hPnil]
        simp only [hsnd2]
        by_cases hNnil : newly = []
        · subst hNnil
          rw [if_pos rfl]
          apply ihf (prev ++ P) [] (stepBatch f deg P).1 sched
          · have := List.length_pos.mpr hPnil
            rw [List.length_append]
            omega
          · simpa using hnd
          · intro v hv
            exact hsub v (by simpa using hv)
          · intro v
            rw [hdeg2 v]
          · intro v
            exact hP2 v
          · exact hSO
          · exact hne
          · exact Or.inl ⟨rfl, hflat2⟩
        · rw [if_neg hNnil]
          have hSO2 : SchedOK f (sched ++ [newly]) := by
            intro k hk v
            have hk2 : k < sched.length + 1 := by
              simpa using hk
            by_cases hks : k < sched.length
            · have hget : (sched ++ [newly]).get ⟨k, hk⟩ =
                  sched.get ⟨k, hks⟩ := List.get_append k hks
              have hupTo : upTo (sched ++ [newly]) k = upTo sched k := by
                rw [upTo, upTo,
                  List.take_append_of_le_length (le_of_lt hks)]
              rw [hget, hupTo]
              exact hSO k hks v
            · have hkeq : k = sched.length := by omega
              subst hkeq
              have hget : (sched ++ [newly]).get ⟨sched.length, hk⟩ =
                  newly := by
                simp
              have hupTo : upTo (sched ++ [newly]) sched.length =
                  sched.flatten := by
                rw [upTo, List.take_left]
              rw [hget, hupTo, hflat2]
              exact hP2 v
          apply ihf (prev ++ P) newly (stepBatch f deg P).1
            (sched ++ [newly])
          · have := List.length_pos.mpr hPnil
            rw [List.length_append]
            omega
          · refine List.Nodup.append hnd hndN ?_
            intro a ha han
            exact ((hP2 a).mp han).2.2 ha
          · intro v hv
            rcases List.mem_append.mp hv with hv2 | hv2
            · exact hsub v hv2
            · exact ((hP2 v).mp hv2).1
          · intro v
            rw [hdeg2 v]
          · intro v
            exact hP2 v
          · exact hSO2
          · intro b hb
            rcases List.mem_append.mp hb with hb2 | hb2
            · exact hne b hb2
            · rw [List.mem_singleton.mp hb2]
              exact hNnil
          · exact Or.inr ⟨sched, rfl, hflat2⟩

/-- The edge relation of a flow. -/
def EdgeStep (f : UserDefinedFlow) (u v : Nat) : Prop := (u, v) ∈ f.edges

/-- A directed cycle in the flow graph: a non-empty list of nodes
chained by edges whose last node has an edge back to its head. -/
def IsCycle (f : UserDefinedFlow) (l : List Nat) : Prop :=
  l ≠ [] ∧ l.Chain' (EdgeStep f) ∧
    ∃ a b, l.head? = some a ∧ l.getLast? = some b ∧ EdgeStep f b a

/-- Acyclicity of the edge relation: no directed cycle exists. -/
def Acyclic (f : UserDefinedFlow) : Prop := ∀ l : List Nat, ¬ IsCycle f l

/-- Iterate of a function (used to build backward walks). -/
def iterFun (g : Nat → Nat) (v : Nat) : Nat → Nat
  | 0 => v
  | n + 1 => g (iterFun g v n)

/-- The list `[w n, w (n-1), ..., w 0]`. -/
def descWalk (w : Nat → Nat) : Nat → List Nat
  | 0 => [w 0]
  | n + 1 => w (n + 1) :: descWalk w n

lemma descWalk_ne_nil (w : Nat → Nat) (n : Nat) : descWalk w n ≠ [] := by
  cases n <;> simp [descWalk]

lemma descWalk_head (w : Nat → Nat) (n : Nat) :
    (descWalk w n).head? = some (w n) := by
  cases n <;> simp [descWalk]

lemma descWalk_getLast (w : Nat → Nat) (n : Nat) :
    (descWalk w n).getLast? = some (w 0) := by
  induction n with
  | zero => rfl
  | succ n ih =>
      rw [descWalk]
      cases hd : descWalk w n with
      | nil => exact absurd hd (descWalk_ne_nil w n)
      | cons x xs =>
          rw [List.getLast?_cons_cons, ← hd, ih]

lemma descWalk_chain (w : Nat → Nat) (R : Nat → Nat → Prop)
    (hstep : ∀ k, R (w (k + 1)) (w k)) (n : Nat) :
    (descWalk w n).Chain' R := by
  induction n with
  | zero => simp [descWalk]
  | succ n ih =>
      rw [descWalk, List.chain'_cons']
      refine ⟨?_, ih⟩
      intro b hb
      rw [descWalk_head w n] at hb
      have : w n = b := by
        simpa using hb
      exact this ▸ hstep n

/-- A backward-infinite walk with a repeated node yields a cycle,
contradicting acyclicity. -/
lemma walk_repeat_cycle_aux (f : UserDefinedFlow) (hacyc : Acyclic f)
    (w : Nat → Nat) (hedge : ∀ n, (w (n + 1), w n) ∈ f.edges)
    (i j : Nat) (hij : i < j) (heq : w i = w j) : False := by
  apply hacyc (descWalk (fun k => w (k + i)) (j - 1 - i))
  refine ⟨descWalk_ne_nil _ _, ?_, w (j - 1 - i + i), w (0 + i),
    descWalk_head _ _, descWalk_getLast _ _, ?_⟩
  · apply descWalk_chain
    intro k
    have h1 := hedge (k + i)
    have h2 : k + i + 1 = k + 1 + i := by omega
    rw [h2] at h1
    exact h1
  · have hz : (0 : Nat) + i = i := Nat.zero_add i
    have hidx : j - 1 - i + i = j - 1 := by omega
    rw [hz, hidx]
    have h1 := hedge (j - 1)
    have h2 : j - 1 + 1 = j := by omega
    rw [h2] at h1
    show (w i, w (j - 1)) ∈ f.edges
    rw [heq]
    exact h1

/-- In an acyclic graph, every non-empty node list contains a node with
no in-edge from within the list (a "source" of the induced subgraph). -/
lemma exists_source_of_acyclic (f : UserDefinedFlow) (hacyc : Acyclic f)
    (S : List Nat) (hS : S ≠ []) :
    ∃ v ∈ S, ∀ u ∈ S, (u, v) ∉ f.edges := by
  by_contra hcon
  push_neg at hcon
  have hpickS : ∀ v ∈ S,
      ((S.find? (fun u => decide ((u, v) ∈ f.edges))).getD 0) ∈ S ∧
      (((S.find? (fun u => decide ((u, v) ∈ f.edges))).getD 0), v) ∈
        f.edges := by
    intro v hv
    obtain ⟨u, hu, hedge⟩ := hcon v hv
    have hsome : (S.find? (fun u => decide ((u, v) ∈ f.edges))).isSome := by
      rw [List.find?_isSome]
      exact ⟨u, hu, by simpa using hedge⟩
    obtain ⟨u2, hu2⟩ := Option.isSome_iff_exists.mp hsome
    rw [hu2]
    have hmem := List.mem_of_find?_eq_some hu2
    have hsat := List.find?_some hu2
    simp only [Option.getD_some]
    exact ⟨hmem, by simpa using hsat⟩
  have hw : ∀ n,
      iterFun (fun v => (S.find? (fun u => decide ((u, v) ∈ f.edges))).getD 0)
        (S.head hS) n ∈ S := by
    intro n
    induction n with
    | zero => exact List.head_mem hS
    | succ n ih => exact (hpickS _ ih).1
  have hedge : ∀ n,
      (iterFun (fun v => (S.find? (fun u => decide ((u, v) ∈ f.edges))).getD 0)
          (S.head hS) (n + 1),
        iterFun (fun v => (S.find? (fun u => decide ((u, v) ∈ f.edges))).getD 0)
          (S.head hS) n) ∈ f.edges :=
    fun n => (hpickS _ (hw n)).2
  obtain ⟨i, -, j, -, hij, heq⟩ :=
    Finset.exists_ne_map_eq_of_card_lt_of_maps_to
      (s := (Finset.univ : Finset (Fin (S.length + 1))))
      (t := S.toFinset)
      (by
        rw [Finset.card_univ, Fintype.card_fin]
        exact Nat.lt_succ_of_le (List.toFinset_card_le S))
      (fun a _ => List.mem_toFinset.mpr (hw a.1))
  rcases Nat.lt_or_ge i.1 j.1 with hlt | hge
  · exact walk_repeat_cycle_aux f hacyc _ hedge i.1 j.1 hlt heq
  · have hlt2 : j.1 < i.1 := by
      rcases Nat.lt_or_ge j.1 i.1 with h | h
      · exact h
      · exact absurd (Fin.ext (Nat.le_antisymm h hge)) hij
    exact walk_repeat_cycle_aux f hacyc _ hedge j.1 i.1 hlt2 heq.symm

/-- Every node of a cycle has an in-neighbor within the cycle. -/
lemma cycle_pred (f : UserDefinedFlow) (l : List Nat) (hcyc : IsCycle f l) :
    ∀ v ∈ l, ∃ u ∈ l, (u, v) ∈ f.edges := by
  obtain ⟨hne, hchain, a, b, ha, hb, hwrap⟩ := hcyc
  intro v hv
  obtain ⟨⟨j, hj⟩, hget⟩ := List.mem_iff_get.mp hv
  have hbmem : b ∈ l := by
    obtain ⟨h2, hbl⟩ := List.mem_getLast?_eq_getLast (by
      rw [hb]
      rfl)
    exact hbl ▸ List.getLast_mem h2
  cases j with
  | zero =>
      obtain ⟨x, xs, rfl⟩ := List.exists_cons_of_ne_nil hne
      have hxa : x = a := by
        simpa using ha
      have hxv : x = v := hget
      exact ⟨b, hbmem, by
        have : EdgeStep f b a := hwrap
        rw [← hxa, hxv] at this
        exact this⟩
  | succ i =>
      have hstep := List.chain'_iff_get.mp hchain i (by omega)
      refine ⟨l.get ⟨i, by omega⟩, List.get_mem l i (by omega), ?_⟩
      have : EdgeStep f (l.get ⟨i, by omega⟩) (l.get ⟨i + 1, by omega⟩) :=
        hstep
      rw [hget] at this
      exact this

/-- When every edge destination is a node id, the `in_degree` key set is
exactly the node id set. -/
lemma inDegKeys_eq_nodeIds (f : UserDefinedFlow)
    (hdst : ∀ e ∈ f.edges, e.2 ∈ f.nodeIds) : inDegKeys f = f.nodeIds := by
  rw [inDegKeys]
  have hfil : (f.edges.map Prod.snd).filter
      (fun v => decide (v ∉ f.nodeIds)) = [] := by
    rw [List.filter_eq_nil_iff]
    intro a ha
    obtain ⟨e, he, hea⟩ := List.mem_map.mp ha
    simp only [decide_eq_true_eq, Decidable.not_not]
    exact hea ▸ hdst e he
  rw [hfil]
  simp

/-- Running the loop from the state `build_schedule` enters it in (first
batch of in-degree-0 keys, schedule `[first]`) yields a complete
well-formed result. -/
lemma loop_from_start (f : UserDefinedFlow) (hkeys : (inDegKeys f).Nodup)
    (hfne : (inDegKeys f).filter (fun v => decide (deg0 f v = 0)) ≠ []) :
    ∃ sched2,
      loopSched f ((inDegKeys f).length + 1) (deg0 f)
          ((inDegKeys f).filter (fun v => decide (deg0 f v = 0)))
          [(inDegKeys f).filter (fun v => decide (deg0 f v = 0))] =
        some sched2 ∧
      SchedOK f sched2 ∧ (∀ b ∈ sched2, b ≠ []) ∧
      sched2.flatten.Nodup ∧
      (∀ v ∈ sched2.flatten, v ∈ inDegKeys f) ∧
      (∀ v ∈ inDegKeys f,
        dAfter f sched2.flatten v = 0 → v ∈ sched2.flatten) := by
  apply loopSched_master f hkeys ((inDegKeys f).length + 1) [] _ (deg0 f)
  · simp
  · simpa using List.Nodup.filter _ hkeys
  · intro v hv
    have hv2 : v ∈ (inDegKeys f).filter (fun v => decide (deg0 f v = 0)) := by
      simpa using hv
    exact List.mem_of_mem_filter hv2
  · intro v
    rw [dAfter_nil]
  · intro v
    rw [List.mem_filter]
    simp [dAfter_nil]
  · intro k hk v
    have hk0 : k = 0 := by
      simpa using hk
    subst hk0
    show v ∈ (inDegKeys f).filter (fun v => decide (deg0 f v = 0)) ↔ _
    rw [List.mem_filter]
    simp [upTo, dAfter_nil]
  · intro b hb
    rw [List.mem_singleton] at hb
    rw [hb]
    exact hfne
  · exact Or.inr ⟨[], rfl, rfl⟩

/-- C1: for every flow whose edges reference only existing nodes and
whose edge relation is acyclic (node ids distinct, as `HashMap` keys
are), `build_schedule` returns `Ok` with a schedule in which every node
appears in exactly one batch (the flattened schedule has no duplicates
and contains exactly the node ids), no batch is empty (batch indices
are contiguous from 0), and every node's batch index is strictly
greater than the batch index of each of its predecessors. -/
theorem build_schedule_dag (f : UserDefinedFlow)
    (hnd : f.nodeIds.Nodup)
    (hedges : ∀ e ∈ f.edges, e.1 ∈ f.nodeIds ∧ e.2 ∈ f.nodeIds)
    (hacyc : Acyclic f) :
    ∃ sched, f.build_schedule = .ok sched ∧
      (∀ b ∈ sched, b ≠ []) ∧
      sched.flatten.Nodup ∧
      (∀ v, v ∈ sched.flatten ↔ v ∈ f.nodeIds) ∧
      (∀ e ∈ f.edges, ∀ i j, ∀ hi : i < sched.length,
        ∀ hj : j < sched.length,
        e.1 ∈ sched.get ⟨i, hi⟩ → e.2 ∈ sched.get ⟨j, hj⟩ → i < j) := by
  have hkeq : inDegKeys f = f.nodeIds :=
    inDegKeys_eq_nodeIds f (fun e he => (hedges e he).2)
  have hkeys : (inDegKeys f).Nodup := by
    rw [hkeq]
    exact hnd
  by_cases hnil : f.nodeIds = []
  · have hnodes : f.nodes = [] := by
      have := hnil
      rw [UserDefinedFlow.nodeIds] at this
      exact List.map_eq_nil.mp this
    have hE : f.edges = [] := by
      cases hEe : f.edges with
      | nil => rfl
      | cons e es =>
          exfalso
          have := (hedges e (by rw [hEe]; exact List.mem_cons_self e es)).1
          rw [hnil] at this
          simp at this
    refine ⟨[], ?_, by simp, by simp, by simp [hnil], by simp⟩
    simp [UserDefinedFlow.build_schedule, inDegKeys, UserDefinedFlow.nodeIds,
      hnodes, hE, deg0, loopSched]
  · have hfne : (inDegKeys f).filter (fun v => decide (deg0 f v = 0)) ≠ [] := by
      obtain ⟨v, hvS, hsrc⟩ := exists_source_of_acyclic f hacyc f.nodeIds hnil
      have hd0 : deg0 f v = 0 := by
        rw [deg0, List.length_eq_zero, List.filter_eq_nil_iff]
        intro e he
        simp only [decide_eq_true_eq]
        intro hv2
        apply hsrc e.1 (hedges e he).1
        rw [← hv2]
        exact he
      exact List.ne_nil_of_mem (List.mem_filter.mpr
        ⟨by rw [hkeq]; exact hvS, by simpa using hd0⟩)
    obtain ⟨sched2, hloop, hSO, hne, hndF, hsubF, hclosed⟩ :=
      loop_from_start f hkeys hfne
    have hcover : ∀ v ∈ f.nodeIds, v ∈ sched2.flatten := by
      by_contra hcon
      push_neg at hcon
      obtain ⟨w0, hw0, hw0n⟩ := hcon
      have hSne : f.nodeIds.filter
          (fun v => decide (v ∉ sched2.flatten)) ≠ [] :=
        List.ne_nil_of_mem (List.mem_filter.mpr ⟨hw0, by simpa using hw0n⟩)
      obtain ⟨v, hvS, hsrc⟩ := exists_source_of_acyclic f hacyc _ hSne
      have hvN : v ∈ f.nodeIds := List.mem_of_mem_filter hvS
      have hvF : v ∉ sched2.flatten := by
        have := (List.mem_filter.mp hvS).2
        simpa using this
      have hd0 : dAfter f sched2.flatten v = 0 := by
        rw [dAfter_eq_zero_iff]
        intro e he hv2
        by_contra hc
        have he1S : e.1 ∈ f.nodeIds.filter
            (fun v => decide (v ∉ sched2.flatten)) :=
          List.mem_filter.mpr ⟨(hedges e he).1, by simpa using hc⟩
        apply hsrc e.1 he1S
        rw [← hv2]
        exact he
      exact hvF (hclosed v (by rw [hkeq]; exact hvN) hd0)
    have hiff : ∀ v, v ∈ sched2.flatten ↔ v ∈ f.nodeIds := by
      intro v
      constructor
      · intro hv
        rw [← hkeq]
        exact hsubF v hv
      · exact hcover v
    have hperm : sched2.flatten.Perm f.nodeIds :=
      (hndF.subperm (fun v hv => (hiff v).mp hv)).antisymm
        (hnd.subperm (fun v hv => (hiff v).mpr hv))
    have hlen : sched2.flatten.dedup.length = f.nodes.length := by
      rw [List.dedup_eq_self.mpr hndF, hperm.length_eq,
        UserDefinedFlow.nodeIds, List.length_map]
    have hbs : f.build_schedule = .ok sched2 := by
      have hcond : ¬((inDegKeys f).filter (fun v => decide (deg0 f v = 0)) = []
          ∧ f.nodes.isEmpty = false) := fun hc => hfne hc.1
      have hfin : ¬((sched2.flatten.dedup).length ≠ f.nodes.length) :=
        fun hc => hc hlen
      simp only [UserDefinedFlow.build_schedule]
      rw [if_neg hcond, if_neg hfne, hloop]
      dsimp only
      rw [if_neg hfin]
    refine ⟨sched2, hbs, hne, hndF, hiff, ?_⟩
    intro e he i j hi hj h1 h2
    have h2d := ((hSO j hj e.2).mp h2).2.1
    rw [dAfter_eq_zero_iff] at h2d
    have he1 : e.1 ∈ upTo sched2 j := h2d e he rfl
    obtain ⟨k, hk, hkj, hvk⟩ := mem_upTo_elim sched2 j e.1 he1
    have hki : k = i :=
      schedOK_unique_batch f sched2 hSO k i hk hi e.1 hvk h1
    omega

/-- A graph whose every edge goes from a smaller to a larger id is
acyclic (used to discharge `Acyclic` at concrete inputs). -/
lemma acyclic_of_lt_edges (f : UserDefinedFlow)
    (hmono : ∀ e ∈ f.edges, e.1 < e.2) : Acyclic f := by
  intro l hl
  obtain ⟨hne, hchain, a, b, ha, hb, hwrap⟩ := hl
  have hchain2 : List.Chain' (· < ·) l :=
    hchain.imp (fun x y hy => hmono (x, y) hy)
  have hba : b < a := hmono (b, a) hwrap
  have hpw : List.Pairwise (· < ·) l := List.chain'_iff_pairwise.mp hchain2
  obtain ⟨x, xs, rfl⟩ := List.exists_cons_of_ne_nil hne
  have hxa : x = a := by
    simpa using ha
  have hbmem : b ∈ x :: xs := by
    obtain ⟨h2, hbl⟩ := List.mem_getLast?_eq_getLast (show b ∈ (x :: xs).getLast? by
      rw [hb]
      rfl)
    exact hbl ▸ List.getLast_mem h2
  rcases List.mem_cons.mp hbmem with hbx | hbxs
  · omega
  · have hxb := (List.pairwise_cons.mp hpw).1 b hbxs
    omega

/-- Witness for C1 at the concrete linear flow `0 → 1 → 2`. -/
theorem build_schedule_dag_witness :
    ∃ sched,
      (UserDefinedFlow.build_schedule
        ⟨[(0, .Unknown .jnull), (1, .Unknown .jnull), (2, .Unknown .jnull)],
         [(0, 1), (1, 2)]⟩) = .ok sched ∧
      (∀ b ∈ sched, b ≠ []) ∧
      sched.flatten.Nodup ∧
      (∀ v, v ∈ sched.flatten ↔ v ∈ (UserDefinedFlow.nodeIds
        ⟨[(0, .Unknown .jnull), (1, .Unknown .jnull), (2, .Unknown .jnull)],
         [(0, 1), (1, 2)]⟩)) ∧
      (∀ e ∈ ([(0, 1), (1, 2)] : List Edge), ∀ i j,
        ∀ hi : i < sched.length, ∀ hj : j < sched.length,
        e.1 ∈ sched.get ⟨i, hi⟩ → e.2 ∈ sched.get ⟨j, hj⟩ → i < j) :=
  build_schedule_dag
    ⟨[(0, .Unknown .jnull), (1, .Unknown .jnull), (2, .Unknown .jnull)],
     [(0, 1), (1, 2)]⟩
    (by decide) (by decide)
    (acyclic_of_lt_edges _ (by decide))

/-- C2: for every flow with distinct node ids whose edges reference only
existing nodes and whose edge relation contains a cycle,
`build_schedule` returns an error, and the error is one of the two
cycle-detection messages: the first-batch-empty check or the
not-all-nodes-scheduled check. -/
theorem build_schedule_cycle (f : UserDefinedFlow)
    (hnd : f.nodeIds.Nodup)
    (hedges : ∀ e ∈ f.edges, e.1 ∈ f.nodeIds ∧ e.2 ∈ f.nodeIds)
    (l : List Nat) (hcyc : IsCycle f l) :
    ∃ msg, f.build_schedule = .error msg ∧
      (msg = cycleMsg ∨ msg = unableMsg) := by
  have hkeq : inDegKeys f = f.nodeIds :=
    inDegKeys_eq_nodeIds f (fun e he => (hedges e he).2)
  have hkeys : (inDegKeys f).Nodup := by
    rw [hkeq]
    exact hnd
  have hpred := cycle_pred f l hcyc
  obtain ⟨hlne, -, -⟩ := hcyc
  obtain ⟨c0, hc0⟩ := List.exists_mem_of_ne_nil l hlne
  have hc0n : c0 ∈ f.nodeIds := by
    obtain ⟨u, hu, hedge⟩ := hpred c0 hc0
    exact (hedges _ hedge).2
  have hnodesne : f.nodes.isEmpty = false := by
    cases hN : f.nodes with
    | nil =>
        exfalso
        have : f.nodeIds = [] := by
          rw [UserDefinedFlow.nodeIds, hN]
          rfl
        rw [this] at hc0n
        simp at hc0n
    | cons p ps => rfl
  by_cases hfnil :
      (inDegKeys f).filter (fun v => decide (deg0 f v = 0)) = []
  · refine ⟨cycleMsg, ?_, Or.inl rfl⟩
    simp only [UserDefinedFlow.build_schedule]
    rw [if_pos ⟨hfnil, hnodesne⟩]
  · obtain ⟨sched2, hloop, hSO, hne, hndF, hsubF, hclosed⟩ :=
      loop_from_start f hkeys hfnil
    have hnosched : ∀ k, ∀ hk : k < sched2.length, ∀ v ∈ l,
        v ∉ sched2.get ⟨k, hk⟩ := by
      intro k
      induction k using Nat.strong_induction_on with
      | _ k ih =>
          intro hk v hvl hvb
          have hd0 := ((hSO k hk v).mp hvb).2.1
          obtain ⟨u, hul, hedge⟩ := hpred v hvl
          rw [dAfter_eq_zero_iff] at hd0
          have huU : u ∈ upTo sched2 k := hd0 (u, v) hedge rfl
          obtain ⟨k2, hk2, hk2k, hvk2⟩ := mem_upTo_elim sched2 k u huU
          exact ih k2 hk2k hk2 u hul hvk2
    have hc0f : c0 ∉ sched2.flatten := by
      intro hc
      obtain ⟨j, hj, hvj⟩ := exists_get_of_mem_flatten sched2 c0 hc
      exact hnosched j hj c0 hc0 hvj
    have hsubE : ∀ v ∈ sched2.flatten, v ∈ f.nodeIds.erase c0 := by
      intro v hv
      have hvN : v ∈ f.nodeIds := by
        rw [← hkeq]
        exact hsubF v hv
      have hvc : v ≠ c0 := fun hc => hc0f (hc ▸ hv)
      exact (List.mem_erase_of_ne hvc).mpr hvN
    have hle := (hndF.subperm hsubE).length_le
    have herase : (f.nodeIds.erase c0).length = f.nodeIds.length - 1 :=
      List.length_erase_of_mem hc0n
    have hpos : 0 < f.nodeIds.length :=
      List.length_pos.mpr (fun hc => by
        rw [hc] at hc0n
        simp at hc0n)
    have hlenN : f.nodes.length = f.nodeIds.length := by
      rw [UserDefinedFlow.nodeIds, List.length_map]
    have hneq : (sched2.flatten.dedup).length ≠ f.nodes.length := by
      rw [List.dedup_eq_self.mpr hndF]
      omega
    refine ⟨unableMsg, ?_, Or.inr rfl⟩
    simp only [UserDefinedFlow.build_schedule]
    rw [if_neg (fun hc => hfnil hc.1), if_neg hfnil, hloop]
    dsimp only
    rw [if_pos hneq]

/-- Witness for C2 at the concrete two-node cycle `0 → 1 → 0`. -/
theorem build_schedule_cycle_witness :
    ∃ msg,
      (UserDefinedFlow.build_schedule
        ⟨[(0, .Unknown .jnull), (1, .Unknown .jnull)],
         [(0, 1), (1, 0)]⟩) = .error msg ∧
      (msg = cycleMsg ∨ msg = unableMsg) :=
  build_schedule_cycle
    ⟨[(0, .Unknown .jnull), (1, .Unknown .jnull)], [(0, 1), (1, 0)]⟩
    (by decide) (by decide) [0, 1]
    ⟨by decide,
     List.chain'_cons.mpr
       ⟨show ((0 : Nat), (1 : Nat)) ∈
           [((0 : Nat), (1 : Nat)), ((1 : Nat), (0 : Nat))] by decide,
        List.chain'_singleton 1⟩,
     0, 1, rfl, rfl,
     show ((1 : Nat), (0 : Nat)) ∈
         [((0 : Nat), (1 : Nat)), ((1 : Nat), (0 : Nat))] by decide⟩

/-- C4 amended: graph construction performs no edge validation; a flow
whose single node `a` carries an edge to a missing node `x` is handed to
the scheduler, which schedules the phantom destination as an extra
`in_degree` key and then fails its node-count check with the
possible-cycle error `unableMsg` — there is no `MalformedGraphError`. -/
theorem dangling_edge_amended (a x : Nat) (c : NonExhaustive Component)
    (h : x ≠ a) :
    UserDefinedFlow.build_schedule ⟨[(a, c)], [(a, x)]⟩ =
      .error unableMsg := by
  have hkeys : inDegKeys ⟨[(a, c)], [(a, x)]⟩ = [a, x] := by
    simp [inDegKeys, UserDefinedFlow.nodeIds, h]
  have hknodup : (inDegKeys ⟨[(a, c)], [(a, x)]⟩).Nodup := by
    rw [hkeys]
    simp [List.nodup_cons]
    exact fun hc => h hc.symm
  have hdeg0a : deg0 ⟨[(a, c)], [(a, x)]⟩ a = 0 := by
    simp [deg0, h]
  have hdeg0x : deg0 ⟨[(a, c)], [(a, x)]⟩ x = 1 := by
    simp [deg0]
  have hfirst : (inDegKeys ⟨[(a, c)], [(a, x)]⟩).filter
      (fun v => decide (deg0 ⟨[(a, c)], [(a, x)]⟩ v = 0)) = [a] := by
    rw [hkeys]
    rw [List.filter_cons, List.filter_cons, List.filter_nil]
    simp [hdeg0a, hdeg0x]
  have hfne : (inDegKeys ⟨[(a, c)], [(a, x)]⟩).filter
      (fun v => decide (deg0 ⟨[(a, c)], [(a, x)]⟩ v = 0)) ≠ [] := by
    rw [hfirst]
    simp
  obtain ⟨sched2, hloop, hSO, hne, hndF, hsubF, hclosed⟩ :=
    loop_from_start _ hknodup hfne
  have haf : a ∈ sched2.flatten := by
    apply hclosed a (by rw [hkeys]; simp)
    rw [dAfter_eq_zero_iff]
    intro e he hv2
    exfalso
    rw [List.mem_singleton] at he
    rw [he] at hv2
    exact h hv2
  have hxf : x ∈ sched2.flatten := by
    apply hclosed x (by rw [hkeys]; simp)
    rw [dAfter_eq_zero_iff]
    intro e he hv2
    rw [List.mem_singleton] at he
    rw [he]
    exact haf
  have hlen2 : 2 ≤ sched2.flatten.length := by
    have hnd2 : ([a, x] : List Nat).Nodup := by
      simp [List.nodup_cons]
      exact fun hc => h hc.symm
    have hsp := (hnd2.subperm (fun v hv => by
      rcases List.mem_cons.mp hv with h1 | h1
      · rw [h1]
        exact haf
      · rw [List.mem_singleton.mp h1]
        exact hxf)).length_le
    simpa using hsp
  have hneq : (sched2.flatten.dedup).length ≠
      ([(a, c)] : List (Nat × NonExhaustive Component)).length := by
    rw [List.dedup_eq_self.mpr hndF]
    simp only [List.length_singleton]
    omega
  simp only [UserDefinedFlow.build_schedule]
  rw [if_neg (fun hc => hfne hc.1), if_neg hfne, hloop]
  dsimp only
  rw [if_pos hneq]

/-- Witness for the C4 amended theorem at `a = 0`, `x = 2`. -/
theorem dangling_edge_amended_witness :
    UserDefinedFlow.build_schedule ⟨[(0, .Unknown .jnull)], [(0, 2)]⟩ =
      .error unableMsg :=
  dangling_edge_amended 0 2 (.Unknown .jnull) (by decide)
